import Mathlib

/-!
Verification of the bighead retrieval pipeline core
(`backend/app/services/retrieval/`): text chunking, relevance scoring,
embeddings CRUD/pagination, query expansion, and store initialization
retry logic.

Python strings are modelled as `List Char`; Python floats appearing in
the relevance computation are modelled as exact rationals (`ℚ`), and
Python's `round(x, 3)` as round-half-to-even on the scaled rational.
Fallible operations (a `ZeroDivisionError`, an exception raised to the
caller) are modelled with `Option` / `Except`.
-/

set_option maxRecDepth 10000

namespace BigHead

/-- Python strings modelled as lists of characters. -/
abbrev Str := List Char

/-- `text.split('\n')` from Python: always returns at least one (possibly
empty) line. -/
def splitLines : Str → List Str
  | [] => [[]]
  | c :: cs =>
    if c = '\n' then [] :: splitLines cs
    else
      match splitLines cs with
      | [] => [[c]]
      | l :: ls => (c :: l) :: ls

/-- `'\n'.join(lines)` (general separator): `List.intercalate [sep]`,
written out recursively for easy induction. -/
def joinWith (sep : Char) : List Str → Str
  | [] => []
  | [l] => l
  | l :: l2 :: ls => l ++ sep :: joinWith sep (l2 :: ls)

/-- A chunk as produced by `TextChunker` (`text_chunker.py`): the dict
`{'text': ..., 'line_start': ..., 'line_end': ...}`. -/
structure Chunk where
  text : Str
  line_start : Nat
  line_end : Nat
deriving DecidableEq, Repr

/-- The loop state shared by all three chunking strategies:
`chunks`, `current_chunk`, `current_size`, `chunk_start_line`,
`current_line`. -/
structure ChunkState where
  chunks : List Chunk
  current_chunk : List Str
  current_size : Nat
  chunk_start_line : Nat
  current_line : Nat
deriving DecidableEq, Repr

/-- Initial loop state (`chunks = []`, `current_chunk = []`,
`current_size = 0`, `chunk_start_line = 1`, `current_line = 1`). -/
def initState : ChunkState := ⟨[], [], 0, 1, 1⟩

/-- `len(line) + 1  # +1 for newline` -/
def lineSize (l : Str) : Nat := l.length + 1

/-- Total size of a list of lines, matching the incremental
`current_size` bookkeeping of the Python code. -/
def sizeSum (ls : List Str) : Nat := (ls.map lineSize).sum

/-- The backward walk building the overlap window
(`for i in range(len(current_chunk) - 1, -1, -1): ...`), expressed on the
reversed line list: take lines while the accumulated size stays within
the overlap budget, stop at the first line that does not fit. -/
def overlapRev (budget : Nat) : Nat → List Str → List Str
  | _, [] => []
  | size, l :: rest =>
    if size + lineSize l ≤ budget then l :: overlapRev budget (size + lineSize l) rest
    else []

/-- The overlap window in source order. -/
def overlapTake (budget : Nat) (current : List Str) : List Str :=
  (overlapRev budget 0 current.reverse).reverse

/-- The chunk emitted when the current buffer is closed. -/
def closeChunk (s : ChunkState) : Chunk :=
  ⟨joinWith '\n' s.current_chunk, s.chunk_start_line, s.current_line - 1⟩

/-- One loop iteration of `TextChunker.split_text_with_overlap`
(`text_chunker.py` lines 31-64). -/
def overlapStep (chunk_size overlap : Nat) (s : ChunkState) (line : Str) : ChunkState :=
  if chunk_size < s.current_size + lineSize line ∧ s.current_chunk ≠ [] then
    let ov := overlapTake overlap s.current_chunk
    { chunks := s.chunks ++ [closeChunk s]
      current_chunk := ov ++ [line]
      current_size := sizeSum ov + lineSize line
      chunk_start_line := s.current_line - ov.length
      current_line := s.current_line + 1 }
  else
    { s with
      current_chunk := s.current_chunk ++ [line]
      current_size := s.current_size + lineSize line
      current_line := s.current_line + 1 }

/-- Final flush (`if current_chunk: chunks.append(...)`). -/
def flushState (s : ChunkState) : List Chunk :=
  if s.current_chunk = [] then s.chunks else s.chunks ++ [closeChunk s]

/-- `TextChunker.split_text_with_overlap(text, chunk_size, overlap)`
(`text_chunker.py` lines 12-74). -/
def split_text_with_overlap (text : Str) (chunk_size overlap : Nat) :
    List Chunk :=
  flushState ((splitLines text).foldl (overlapStep chunk_size overlap) initState)

/-- Python whitespace for `str.strip()` (ASCII whitespace classes). -/
def isPySpace (c : Char) : Bool :=
  c = ' ' ∨ c = '\t' ∨ c = '\n' ∨ c = '\r' ∨ c = '\x0b' ∨ c = '\x0c'

/-- `line.strip()`. -/
def pyStrip (l : Str) : Str :=
  ((l.dropWhile isPySpace).reverse.dropWhile isPySpace).reverse

/-- `section_markers` from `split_text_semantically`. -/
def sectionMarkers : List Str :=
  [('-' :: '-' :: '-' :: []), ('#' :: '#' :: '#' :: []), ('#' :: '#' :: []), ('#' :: [])]

/-- `is_section_start(line)`: the stripped line starts with one of the
section markers. -/
def is_section_start (line : Str) : Bool :=
  sectionMarkers.any (fun m => m.isPrefixOf (pyStrip line))

/-- One loop iteration of `TextChunker.split_text_semantically`
(`text_chunker.py` lines 112-161): structural cut (no overlap), else
size cut with overlap (chunk_size 800, overlap 100), else append. -/
def semStep (s : ChunkState) (line : Str) : ChunkState :=
  if is_section_start line = true ∧ s.current_chunk ≠ [] ∧ pyStrip line ≠ [] then
    { chunks := s.chunks ++ [closeChunk s]
      current_chunk := [line]
      current_size := lineSize line
      chunk_start_line := s.current_line
      current_line := s.current_line + 1 }
  else if 800 < s.current_size + lineSize line ∧ s.current_chunk ≠ [] then
    let ov := overlapTake 100 s.current_chunk
    { chunks := s.chunks ++ [closeChunk s]
      current_chunk := ov ++ [line]
      current_size := sizeSum ov + lineSize line
      chunk_start_line := s.current_line - ov.length
      current_line := s.current_line + 1 }
  else
    { s with
      current_chunk := s.current_chunk ++ [line]
      current_size := s.current_size + lineSize line
      current_line := s.current_line + 1 }

/-- The chunk list built by `split_text_semantically` before the
fragmentation guard (`text_chunker.py` lines 87-169). -/
def semantic_chunks (text : Str) : List Chunk :=
  flushState ((splitLines text).foldl semStep initState)

/-- `TextChunker.split_text_semantically(text)` (`text_chunker.py`
lines 76-175), including the fragmentation guard at lines 171-175. -/
def split_text_semantically (text : Str) : List Chunk :=
  if 20 < (semantic_chunks text).length then split_text_with_overlap text 1200 150
  else semantic_chunks text

/-- One loop iteration of `TextChunker.split_text_with_lines`
(`text_chunker.py` lines 186-202): cut without overlap, then append. -/
def linesStep (chunk_size : Nat) (s : ChunkState) (line : Str) : ChunkState :=
  let s' :=
    if chunk_size < s.current_size + lineSize line ∧ s.current_chunk ≠ [] then
      { chunks := s.chunks ++ [closeChunk s]
        current_chunk := ([] : List Str)
        current_size := 0
        chunk_start_line := s.current_line
        current_line := s.current_line }
    else s
  { s' with
    current_chunk := s'.current_chunk ++ [line]
    current_size := s'.current_size + lineSize line
    current_line := s.current_line + 1 }

/-- `TextChunker.split_text_with_lines(text, chunk_size)`
(`text_chunker.py` lines 177-212). -/
def split_text_with_lines (text : Str) (chunk_size : Nat) : List Chunk :=
  flushState ((splitLines text).foldl (linesStep chunk_size) initState)

/-- Line index `i` (1-based) is inside some chunk's
`[line_start, line_end]` range. -/
def covered (chunks : List Chunk) (i : Nat) : Prop :=
  ∃ c ∈ chunks, c.line_start ≤ i ∧ i ≤ c.line_end

instance (chunks : List Chunk) (i : Nat) : Decidable (covered chunks i) := by
  unfold covered; infer_instance

/-! ### Line-coverage invariant shared by the three chunking loops -/

/-- Loop invariant: the start line is positive, the buffer length matches
the `[chunk_start_line, current_line)` window, and all lines strictly
before the window are covered by already-emitted chunks. -/
def Inv (s : ChunkState) : Prop :=
  1 ≤ s.chunk_start_line ∧ s.chunk_start_line ≤ s.current_line ∧
  s.current_chunk.length = s.current_line - s.chunk_start_line ∧
  ∀ i, 1 ≤ i → i < s.chunk_start_line → covered s.chunks i

lemma overlapRev_length_le (budget : Nat) :
    ∀ (size : Nat) (l : List Str), (overlapRev budget size l).length ≤ l.length := by
  intro size l
  induction l generalizing size with
  | nil => simp [overlapRev]
  | cons a rest ih =>
    unfold overlapRev
    split
    · simpa using Nat.succ_le_succ (ih _)
    · simp

lemma overlapTake_length_le (budget : Nat) (current : List Str) :
    (overlapTake budget current).length ≤ current.length := by
  unfold overlapTake
  simpa using overlapRev_length_le budget 0 current.reverse

lemma covered_append (ch ch' : List Chunk) (i : Nat) (h : covered ch i) :
    covered (ch ++ ch') i := by
  obtain ⟨c, hc, hc1, hc2⟩ := h
  exact ⟨c, List.mem_append_left _ hc, hc1, hc2⟩

lemma covered_close (s : ChunkState) (ch' : List Chunk) (i : Nat)
    (h1 : s.chunk_start_line ≤ i) (h2 : i ≤ s.current_line - 1) :
    covered (s.chunks ++ closeChunk s :: ch') i :=
  ⟨closeChunk s, List.mem_append_right _ (List.mem_cons_self _ _), h1, h2⟩

lemma covered_cut (s : ChunkState) (i : Nat) (ovlen : Nat)
    (hne : s.current_chunk ≠ [])
    (h : Inv s) (h1 : 1 ≤ i) (hlt : i < s.current_line - ovlen) :
    covered (s.chunks ++ [closeChunk s]) i := by
  obtain ⟨ha, hb, hc, hd⟩ := h
  by_cases hcase : i < s.chunk_start_line
  · exact covered_append _ _ _ (hd i h1 hcase)
  · have hlen : 0 < s.current_chunk.length := List.length_pos.mpr hne
    exact covered_close s [] i (by omega) (by omega)

lemma overlapStep_inv (cs ov : Nat) (s : ChunkState) (l : Str) (h : Inv s) :
    Inv (overlapStep cs ov s l) := by
  obtain ⟨ha, hb, hc, hd⟩ := h
  unfold overlapStep
  split_ifs with hcond
  · have hne := hcond.2
    have hlen : 0 < s.current_chunk.length := List.length_pos.mpr hne
    have hov := overlapTake_length_le ov s.current_chunk
    refine ⟨by dsimp only; omega, by dsimp only; omega, by simp; omega, ?_⟩
    intro i hi hlt
    exact covered_cut s i _ hne ⟨ha, hb, hc, hd⟩ hi hlt
  · refine ⟨ha, by dsimp only; omega, by simp; omega, hd⟩

lemma semStep_inv (s : ChunkState) (l : Str) (h : Inv s) : Inv (semStep s l) := by
  obtain ⟨ha, hb, hc, hd⟩ := h
  unfold semStep
  split_ifs with hcond1 hcond2
  · have hne := hcond1.2.1
    have hlen : 0 < s.current_chunk.length := List.length_pos.mpr hne
    refine ⟨by dsimp only; omega, by dsimp only; omega, by simp, ?_⟩
    intro i hi hlt
    exact covered_cut s i 0 hne ⟨ha, hb, hc, hd⟩ hi (by dsimp only at hlt; omega)
  · have hne := hcond2.2
    have hlen : 0 < s.current_chunk.length := List.length_pos.mpr hne
    have hov := overlapTake_length_le 100 s.current_chunk
    refine ⟨by dsimp only; omega, by dsimp only; omega, by simp; omega, ?_⟩
    intro i hi hlt
    exact covered_cut s i _ hne ⟨ha, hb, hc, hd⟩ hi hlt
  · refine ⟨ha, by dsimp only; omega, by simp; omega, hd⟩

lemma linesStep_inv (cs : Nat) (s : ChunkState) (l : Str) (h : Inv s) :
    Inv (linesStep cs s l) := by
  obtain ⟨ha, hb, hc, hd⟩ := h
  unfold linesStep
  split_ifs with hcond
  · have hne := hcond.2
    have hlen : 0 < s.current_chunk.length := List.length_pos.mpr hne
    refine ⟨by dsimp only; omega, by dsimp only; omega, by simp, ?_⟩
    intro i hi hlt
    exact covered_cut s i 0 hne ⟨ha, hb, hc, hd⟩ hi (by dsimp only at hlt; omega)
  · refine ⟨ha, by dsimp only; omega, by simp; omega, hd⟩

lemma foldl_inv {step : ChunkState → Str → ChunkState}
    (hstep : ∀ s l, Inv s → Inv (step s l)) :
    ∀ (lines : List Str) (s : ChunkState), Inv s → Inv (lines.foldl step s) := by
  intro lines
  induction lines with
  | nil => intro s h; simpa using h
  | cons l ls ih => intro s h; rw [List.foldl_cons]; exact ih _ (hstep _ _ h)

lemma foldl_current_line {step : ChunkState → Str → ChunkState}
    (hstep : ∀ s l, (step s l).current_line = s.current_line + 1) :
    ∀ (lines : List Str) (s : ChunkState),
      (lines.foldl step s).current_line = s.current_line + lines.length := by
  intro lines
  induction lines with
  | nil => simp
  | cons l ls ih =>
    intro s
    rw [List.foldl_cons, ih, hstep]
    simp [Nat.add_assoc, Nat.add_comm 1 ls.length]

lemma foldl_current_ne_nil {step : ChunkState → Str → ChunkState}
    (hstep : ∀ s l, (step s l).current_chunk ≠ []) :
    ∀ (lines : List Str) (s : ChunkState), lines ≠ [] →
      (lines.foldl step s).current_chunk ≠ [] := by
  intro lines
  induction lines with
  | nil => intro s h; exact absurd rfl h
  | cons l ls ih =>
    intro s _
    rw [List.foldl_cons]
    cases ls with
    | nil => simpa using hstep s l
    | cons a as => exact ih _ (by simp)

lemma overlapStep_line (cs ov : Nat) (s : ChunkState) (l : Str) :
    (overlapStep cs ov s l).current_line = s.current_line + 1 := by
  unfold overlapStep; split_ifs <;> rfl

lemma semStep_line (s : ChunkState) (l : Str) :
    (semStep s l).current_line = s.current_line + 1 := by
  unfold semStep; split_ifs <;> rfl

lemma linesStep_line (cs : Nat) (s : ChunkState) (l : Str) :
    (linesStep cs s l).current_line = s.current_line + 1 := by
  unfold linesStep; split_ifs <;> rfl

lemma overlapStep_ne_nil (cs ov : Nat) (s : ChunkState) (l : Str) :
    (overlapStep cs ov s l).current_chunk ≠ [] := by
  unfold overlapStep; split_ifs <;> simp

lemma semStep_ne_nil (s : ChunkState) (l : Str) :
    (semStep s l).current_chunk ≠ [] := by
  unfold semStep; split_ifs <;> simp

lemma linesStep_ne_nil (cs : Nat) (s : ChunkState) (l : Str) :
    (linesStep cs s l).current_chunk ≠ [] := by
  unfold linesStep; split_ifs <;> simp

lemma splitLines_ne_nil (t : Str) : splitLines t ≠ [] := by
  induction t with
  | nil => simp [splitLines]
  | cons c cs ih =>
    unfold splitLines
    split
    · simp
    · match h : splitLines cs with
      | [] => simp
      | l :: ls => simp

lemma inv_initState : Inv initState := by
  refine ⟨le_refl 1, le_refl 1, rfl, ?_⟩
  intro i hi hlt
  simp [initState] at hlt
  omega

/-- Coverage of flushed output, for any step function satisfying the
three step lemmas. -/
lemma coverage_generic {step : ChunkState → Str → ChunkState}
    (hinv : ∀ s l, Inv s → Inv (step s l))
    (hline : ∀ s l, (step s l).current_line = s.current_line + 1)
    (hne : ∀ s l, (step s l).current_chunk ≠ [])
    (text : Str) (i : Nat) (h1 : 1 ≤ i) (h2 : i ≤ (splitLines text).length) :
    covered (flushState ((splitLines text).foldl step initState)) i := by
  set lines := splitLines text with hlines
  set s := lines.foldl step initState with hs
  have hInv : Inv s := foldl_inv hinv lines initState inv_initState
  have hLine : s.current_line = 1 + lines.length :=
    foldl_current_line hline lines initState
  have hNe : s.current_chunk ≠ [] :=
    foldl_current_ne_nil hne lines initState (splitLines_ne_nil text)
  obtain ⟨ha, hb, hc, hd⟩ := hInv
  unfold flushState
  rw [if_neg hNe]
  by_cases hcase : i < s.chunk_start_line
  · exact covered_append _ _ _ (hd i h1 hcase)
  · have hlen : 0 < s.current_chunk.length := List.length_pos.mpr hNe
    exact covered_close s [] i (by omega) (by omega)

/-- Coverage for `split_text_with_overlap` at any parameters. -/
lemma coverage_overlap (text : Str) (cs ov : Nat) (i : Nat)
    (h1 : 1 ≤ i) (h2 : i ≤ (splitLines text).length) :
    covered (split_text_with_overlap text cs ov) i :=
  coverage_generic (overlapStep_inv cs ov) (overlapStep_line cs ov)
    (overlapStep_ne_nil cs ov) text i h1 h2

/-- Coverage for the pre-guard semantic chunk list. -/
lemma coverage_semantic_chunks (text : Str) (i : Nat)
    (h1 : 1 ≤ i) (h2 : i ≤ (splitLines text).length) :
    covered (semantic_chunks text) i :=
  coverage_generic semStep_inv semStep_line semStep_ne_nil text i h1 h2

/-- C1: for every input text, the union of the `[line_start, line_end]`
ranges of the chunks returned by the chunker — both the semantic strategy
(`split_text_semantically`, including its fallback) and the
fixed-size-with-overlap strategy (`split_text_with_overlap`, at any
chunk size and overlap) — covers every 1-based line index of the
original text; no line is skipped. -/
theorem C1_line_coverage (text : Str) (cs ov i : Nat)
    (h1 : 1 ≤ i) (h2 : i ≤ (splitLines text).length) :
    covered (split_text_semantically text) i ∧
      covered (split_text_with_overlap text cs ov) i := by
  constructor
  · unfold split_text_semantically
    split_ifs
    · exact coverage_overlap text 1200 150 i h1 h2
    · exact coverage_semantic_chunks text i h1 h2
  · exact coverage_overlap text cs ov i h1 h2

/-- Witness for C1 on the concrete text `"ab\ncd"` at line 2. -/
theorem C1_line_coverage_witness :
    (1 ≤ 2 ∧ 2 ≤ (splitLines ("ab\ncd").toList).length) ∧
      (covered (split_text_semantically (("ab\ncd").toList)) 2 ∧
        covered (split_text_with_overlap (("ab\ncd").toList) 3 1) 2) :=
  ⟨by decide, C1_line_coverage (("ab\ncd").toList) 3 1 2 (by decide) (by decide)⟩

/-! ### C7: empty text and single oversized line -/

/-- `splitLines` of a newline-free text is the single line itself. -/
lemma splitLines_no_newline (t : Str) (h : '\n' ∉ t) : splitLines t = [t] := by
  induction t with
  | nil => rfl
  | cons c cs ih =>
    have hc : ¬ c = '\n' := by
      intro hh; exact h (hh ▸ List.mem_cons_self c cs)
    have hcs : '\n' ∉ cs := fun hm => h (List.mem_cons_of_mem c hm)
    unfold splitLines
    rw [if_neg hc, ih hcs]

/-- No newline occurs in a run of `'a'` characters. -/
lemma newline_not_mem_replicate_a (n : Nat) : '\n' ∉ List.replicate n 'a' := by
  rw [List.mem_replicate]
  rintro ⟨-, hc⟩
  exact absurd hc (by decide)

/-- C7 counterexample: the claim says the empty text yields zero chunks,
but the code splits `""` into the single line `""` and flushes one chunk. -/
theorem C7_counterexample :
    split_text_semantically ([] : Str) = [⟨[], 1, 1⟩] ∧
      split_text_semantically ([] : Str) ≠ [] := by
  constructor <;> decide

/-- C7 amended: every newline-free text (in particular the empty text,
and a single line longer than the 800-character threshold) yields
exactly one chunk containing the whole text and covering line 1; the
empty text yields one empty chunk, not zero chunks, and no mid-line
splitting occurs. -/
theorem C7_single_line_single_chunk (t : Str) (h : '\n' ∉ t) :
    split_text_semantically t = [⟨t, 1, 1⟩] := by
  have hs : splitLines t = [t] := splitLines_no_newline t h
  have hchunks : semantic_chunks t = [⟨t, 1, 1⟩] := by
    unfold semantic_chunks
    rw [hs]
    simp [List.foldl, semStep, initState, flushState, closeChunk, joinWith]
  unfold split_text_semantically
  rw [hchunks]
  simp

/-- Witness for C7 on a single 801-character line (longer than the
800-character threshold). -/
theorem C7_single_line_single_chunk_witness :
    ('\n' ∉ List.replicate 801 'a') ∧
      split_text_semantically (List.replicate 801 'a') =
        [⟨List.replicate 801 'a', 1, 1⟩] :=
  ⟨newline_not_mem_replicate_a 801,
    C7_single_line_single_chunk _ (newline_not_mem_replicate_a 801)⟩

/-! ### C9: the structural-splitting scenario -/

/-- C9: `chunk("# A\nline1\nline2\n# B\nline3")` under the semantic
strategy yields exactly two chunks, the first covering lines 1-3 with
text `"# A\nline1\nline2"`, the second covering lines 4-5 with text
`"# B\nline3"`, with no overlap carried into the second chunk. -/
theorem C9_structural_split_scenario :
    split_text_semantically (("# A\nline1\nline2\n# B\nline3").toList) =
      [⟨("# A\nline1\nline2").toList, 1, 3⟩, ⟨("# B\nline3").toList, 4, 5⟩] := by
  decide

/-! ### C5: the fragmentation guard

A text of 21 lines of 800 characters each makes every line its own chunk
under both the primary semantic strategy (threshold 800) and the
fallback strategy (threshold 1200): both produce exactly 21 chunks, so
the fallback is used but is not strictly smaller. -/

/-- `splitLines` is a left inverse of joining newline-free lines. -/
lemma splitLines_append_newline (g t : Str) (h : '\n' ∉ g) :
    splitLines (g ++ '\n' :: t) = g :: splitLines t := by
  induction g with
  | nil => simp [splitLines]
  | cons c cs ih =>
    have hc : ¬ c = '\n' := by
      intro hh; exact h (hh ▸ List.mem_cons_self c cs)
    have hcs : '\n' ∉ cs := fun hm => h (List.mem_cons_of_mem c hm)
    rw [List.cons_append]
    have hl : splitLines (c :: (cs ++ '\n' :: t)) =
        match splitLines (cs ++ '\n' :: t) with
        | [] => [[c]]
        | l :: ls => (c :: l) :: ls := by
      conv_lhs => unfold splitLines
      rw [if_neg hc]
    rw [hl, ih hcs]

lemma splitLines_joinWith (lss : List Str) (hne : lss ≠ [])
    (h : ∀ l ∈ lss, '\n' ∉ l) : splitLines (joinWith '\n' lss) = lss := by
  induction lss with
  | nil => exact absurd rfl hne
  | cons g rest ih =>
    cases rest with
    | nil =>
      simpa [joinWith] using splitLines_no_newline g (h g (List.mem_cons_self _ _))
    | cons r rs =>
      rw [joinWith, splitLines_append_newline g _ (h g (List.mem_cons_self _ _)),
        ih (by simp) (fun l hl => h l (List.mem_cons_of_mem _ hl))]

/-- A line of 800 `'a'` characters: both strategies must cut on every
such line. -/
def bigLine : Str := List.replicate 800 'a'

/-- The C5 counterexample text: 21 lines of 800 characters. -/
def bigText : Str := joinWith '\n' (List.replicate 21 bigLine)

lemma lineSize_bigLine : lineSize bigLine = 801 := by
  unfold lineSize bigLine
  rw [List.length_replicate]

lemma bigLine_ne_nil : bigLine ≠ [] := by
  unfold bigLine
  exact List.length_pos.mp (by rw [List.length_replicate]; omega)

lemma dropWhile_isPySpace_replicate_a (n : Nat) :
    List.dropWhile isPySpace (List.replicate n 'a') = List.replicate n 'a' := by
  cases n with
  | zero => simp
  | succ m =>
    rw [List.replicate_succ, List.dropWhile_cons]
    have hsp : isPySpace 'a' = false := by decide
    rw [hsp]
    simp

lemma pyStrip_replicate_a (n : Nat) :
    pyStrip (List.replicate n 'a') = List.replicate n 'a' := by
  unfold pyStrip
  rw [dropWhile_isPySpace_replicate_a, List.reverse_replicate,
    dropWhile_isPySpace_replicate_a, List.reverse_replicate]

lemma is_section_start_replicate_a (n : Nat) :
    is_section_start (List.replicate (n + 1) 'a') = false := by
  unfold is_section_start
  rw [pyStrip_replicate_a, List.replicate_succ]
  simp [sectionMarkers, List.isPrefixOf]

lemma pyStrip_bigLine : pyStrip bigLine = bigLine := pyStrip_replicate_a 800

lemma is_section_start_bigLine : is_section_start bigLine = false := by
  unfold bigLine
  rw [show (800 : Nat) = 799 + 1 from rfl]
  exact is_section_start_replicate_a 799

lemma overlapTake_bigLine (budget : Nat) (h : budget < 801) :
    overlapTake budget [bigLine] = [] := by
  unfold overlapTake
  rw [List.reverse_singleton]
  unfold overlapRev
  rw [if_neg (by rw [lineSize_bigLine]; omega)]
  rfl

lemma semStep_bigLine (s : ChunkState) (h : s.current_chunk = [bigLine])
    (hsz : s.current_size = 801) :
    semStep s bigLine =
      { chunks := s.chunks ++ [closeChunk s]
        current_chunk := [bigLine]
        current_size := 801
        chunk_start_line := s.current_line
        current_line := s.current_line + 1 } := by
  unfold semStep
  rw [if_neg (by rw [is_section_start_bigLine]; simp)]
  rw [if_pos ⟨by rw [hsz, lineSize_bigLine]; omega, by rw [h]; simp⟩]
  rw [h, overlapTake_bigLine 100 (by omega)]
  simp [sizeSum, lineSize_bigLine]

lemma overlapStep_bigLine (s : ChunkState) (h : s.current_chunk = [bigLine])
    (hsz : s.current_size = 801) :
    overlapStep 1200 150 s bigLine =
      { chunks := s.chunks ++ [closeChunk s]
        current_chunk := [bigLine]
        current_size := 801
        chunk_start_line := s.current_line
        current_line := s.current_line + 1 } := by
  unfold overlapStep
  rw [if_pos ⟨by rw [hsz, lineSize_bigLine]; omega, by rw [h]; simp⟩]
  rw [h, overlapTake_bigLine 150 (by omega)]
  simp [sizeSum, lineSize_bigLine]

lemma foldl_semStep_bigLine (k : Nat) :
    ∀ s : ChunkState, s.current_chunk = [bigLine] → s.current_size = 801 →
      ((List.replicate k bigLine).foldl semStep s).chunks.length = s.chunks.length + k ∧
      ((List.replicate k bigLine).foldl semStep s).current_chunk = [bigLine] := by
  induction k with
  | zero => intro s h _; simp [h]
  | succ m ih =>
    intro s h hsz
    rw [List.replicate_succ, List.foldl_cons, semStep_bigLine s h hsz]
    obtain ⟨ha, hb⟩ := ih { chunks := s.chunks ++ [closeChunk s]
                            current_chunk := [bigLine]
                            current_size := 801
                            chunk_start_line := s.current_line
                            current_line := s.current_line + 1 } rfl rfl
    refine ⟨?_, hb⟩
    rw [ha]
    simp only [List.length_append, List.length_cons, List.length_nil]
    omega

lemma foldl_overlapStep_bigLine (k : Nat) :
    ∀ s : ChunkState, s.current_chunk = [bigLine] → s.current_size = 801 →
      ((List.replicate k bigLine).foldl (overlapStep 1200 150) s).chunks.length =
          s.chunks.length + k ∧
      ((List.replicate k bigLine).foldl (overlapStep 1200 150) s).current_chunk =
          [bigLine] := by
  induction k with
  | zero => intro s h _; simp [h]
  | succ m ih =>
    intro s h hsz
    rw [List.replicate_succ, List.foldl_cons, overlapStep_bigLine s h hsz]
    obtain ⟨ha, hb⟩ := ih { chunks := s.chunks ++ [closeChunk s]
                            current_chunk := [bigLine]
                            current_size := 801
                            chunk_start_line := s.current_line
                            current_line := s.current_line + 1 } rfl rfl
    refine ⟨?_, hb⟩
    rw [ha]
    simp only [List.length_append, List.length_cons, List.length_nil]
    omega

lemma splitLines_bigText : splitLines bigText = List.replicate 21 bigLine := by
  unfold bigText
  exact splitLines_joinWith _ (by simp)
    (fun l hl => by
      rw [List.eq_of_mem_replicate hl]
      exact newline_not_mem_replicate_a 800)

lemma semStep_initState_bigLine :
    semStep initState bigLine = ⟨[], [bigLine], 801, 1, 2⟩ := by
  unfold semStep initState
  rw [if_neg (by simp), if_neg (by simp)]
  simp [lineSize_bigLine]

lemma overlapStep_initState_bigLine :
    overlapStep 1200 150 initState bigLine = ⟨[], [bigLine], 801, 1, 2⟩ := by
  unfold overlapStep initState
  rw [if_neg (by rw [lineSize_bigLine]; simp)]
  simp [lineSize_bigLine]

lemma semantic_chunks_bigText : (semantic_chunks bigText).length = 21 := by
  unfold semantic_chunks
  rw [splitLines_bigText, show (21 : Nat) = 20 + 1 from rfl, List.replicate_succ,
    List.foldl_cons, semStep_initState_bigLine]
  obtain ⟨ha, hb⟩ := foldl_semStep_bigLine 20 ⟨[], [bigLine], 801, 1, 2⟩ rfl rfl
  unfold flushState
  rw [if_neg (by rw [hb]; simp), List.length_append, ha]
  rfl

lemma overlap_chunks_bigText :
    (split_text_with_overlap bigText 1200 150).length = 21 := by
  unfold split_text_with_overlap
  rw [splitLines_bigText, show (21 : Nat) = 20 + 1 from rfl, List.replicate_succ,
    List.foldl_cons, overlapStep_initState_bigLine]
  obtain ⟨ha, hb⟩ := foldl_overlapStep_bigLine 20 ⟨[], [bigLine], 801, 1, 2⟩ rfl rfl
  unfold flushState
  rw [if_neg (by rw [hb]; simp), List.length_append, ha]
  rfl

/-- C5 counterexample: on 21 lines of 800 characters the primary
semantic strategy produces 21 chunks (more than 20, so the fallback is
used), but the fallback also produces 21 chunks — not strictly fewer. -/
theorem C5_counterexample :
    20 < (semantic_chunks bigText).length ∧
      ¬ (split_text_with_overlap bigText 1200 150).length <
          (semantic_chunks bigText).length := by
  rw [semantic_chunks_bigText, overlap_chunks_bigText]
  omega

/-- C5 amended: whenever the primary semantic strategy would produce
more than 20 chunks, the chunker instead returns the result of the
fixed-size-with-overlap strategy with size 1200 and overlap 150; the
fallback result is not guaranteed to have strictly fewer chunks than the
discarded primary result — it can have exactly as many. -/
theorem C5_fragmentation_guard (text : Str)
    (h : 20 < (semantic_chunks text).length) :
    split_text_semantically text = split_text_with_overlap text 1200 150 := by
  unfold split_text_semantically
  rw [if_pos h]

/-- Witness for C5 on the 21-line text. -/
theorem C5_fragmentation_guard_witness :
    20 < (semantic_chunks bigText).length ∧
      split_text_semantically bigText = split_text_with_overlap bigText 1200 150 :=
  ⟨by rw [semantic_chunks_bigText]; omega,
    C5_fragmentation_guard bigText (by rw [semantic_chunks_bigText]; omega)⟩

/-! ### C10: `split_text_with_lines` reconstructs the text -/

lemma joinWith_cons_cons (sep : Char) (c : Char) (l : Str) (ls : List Str) :
    joinWith sep ((c :: l) :: ls) = c :: joinWith sep (l :: ls) := by
  cases ls <;> simp [joinWith]

lemma joinWith_nil_cons (sep : Char) (l : Str) (ls : List Str) :
    joinWith sep ([] :: l :: ls) = sep :: joinWith sep (l :: ls) := by
  simp [joinWith]

/-- `'\n'.join(text.split('\n')) == text`. -/
lemma joinWith_splitLines (t : Str) : joinWith '\n' (splitLines t) = t := by
  induction t with
  | nil => rfl
  | cons c cs ih =>
    cases h : splitLines cs with
    | nil => exact absurd h (splitLines_ne_nil cs)
    | cons l ls =>
      rw [h] at ih
      by_cases hc : c = '\n'
      · subst hc
        have hs : splitLines ('\n' :: cs) = [] :: splitLines cs := by
          conv_lhs => unfold splitLines
          rw [if_pos rfl]
        rw [hs, h, joinWith_nil_cons, ih]
      · have hl : splitLines (c :: cs) =
            match splitLines cs with
            | [] => [[c]]
            | l :: ls => (c :: l) :: ls := by
          conv_lhs => unfold splitLines
          rw [if_neg hc]
        rw [hl, h]
        show joinWith '\n' ((c :: l) :: ls) = c :: cs
        rw [joinWith_cons_cons, ih]

/-- No line produced by `splitLines` contains a newline. -/
lemma not_newline_mem_splitLines :
    ∀ (t : Str), ∀ l ∈ splitLines t, '\n' ∉ l := by
  intro t
  induction t with
  | nil =>
    intro l hl
    simp [splitLines] at hl
    simp [hl]
  | cons c cs ih =>
    intro l hl
    by_cases hc : c = '\n'
    · subst hc
      have hs : splitLines ('\n' :: cs) = [] :: splitLines cs := by
        conv_lhs => unfold splitLines
        rw [if_pos rfl]
      rw [hs] at hl
      rcases List.mem_cons.mp hl with h1 | h2
      · simp [h1]
      · exact ih l h2
    · have hl' : splitLines (c :: cs) =
          match splitLines cs with
          | [] => [[c]]
          | l :: ls => (c :: l) :: ls := by
        conv_lhs => unfold splitLines
        rw [if_neg hc]
      rw [hl'] at hl
      cases h : splitLines cs with
      | nil => exact absurd h (splitLines_ne_nil cs)
      | cons m ms =>
        rw [h] at hl
        rcases List.mem_cons.mp hl with h1 | h2
        · subst h1
          intro hmem
          rcases List.mem_cons.mp hmem with h3 | h4
          · exact hc h3.symm
          · exact ih m (h ▸ List.mem_cons_self m ms) h4
        · exact ih l (h ▸ List.mem_cons_of_mem m h2)

lemma joinWith_append (sep : Char) :
    ∀ (xs ys : List Str), xs ≠ [] → ys ≠ [] →
      joinWith sep (xs ++ ys) = joinWith sep xs ++ sep :: joinWith sep ys := by
  intro xs
  induction xs with
  | nil => intro ys h _; exact absurd rfl h
  | cons x xs ih =>
    intro ys _ hys
    cases xs with
    | nil =>
      cases ys with
      | nil => exact absurd rfl hys
      | cons y ys' => simp [joinWith]
    | cons x2 xs2 =>
      have hne : (x2 :: xs2 : List Str) ≠ [] := by simp
      calc joinWith sep ((x :: x2 :: xs2) ++ ys)
          = joinWith sep (x :: ((x2 :: xs2) ++ ys)) := by simp
        _ = x ++ sep :: joinWith sep ((x2 :: xs2) ++ ys) := by
            rw [List.cons_append, joinWith]
        _ = x ++ sep :: (joinWith sep (x2 :: xs2) ++ sep :: joinWith sep ys) := by
            rw [ih ys hne hys]
        _ = (x ++ sep :: joinWith sep (x2 :: xs2)) ++ sep :: joinWith sep ys := by
            simp
        _ = joinWith sep (x :: x2 :: xs2) ++ sep :: joinWith sep ys := by
            rw [joinWith]

/-- Joining per-group joins equals joining the flattened lines, provided
no group is empty. -/
lemma joinWith_map_join (sep : Char) :
    ∀ (lss : List (List Str)), (∀ g ∈ lss, g ≠ []) →
      joinWith sep (lss.map (joinWith sep)) = joinWith sep lss.flatten := by
  intro lss
  induction lss with
  | nil => intro _; rfl
  | cons g rest ih =>
    intro h
    cases rest with
    | nil => simp [joinWith]
    | cons r rs =>
      have hg : g ≠ [] := h g (List.mem_cons_self _ _)
      have hr : r ≠ [] := h r (by simp)
      have hrest : ∀ x ∈ r :: rs, x ≠ [] := fun x hx => h x (List.mem_cons_of_mem _ hx)
      have hjoin_ne : (r :: rs : List (List Str)).flatten ≠ [] := by
        cases r with
        | nil => exact absurd rfl hr
        | cons a as => simp
      calc joinWith sep ((g :: r :: rs).map (joinWith sep))
          = joinWith sep (joinWith sep g :: (r :: rs).map (joinWith sep)) := by simp
        _ = joinWith sep g ++ sep :: joinWith sep ((r :: rs).map (joinWith sep)) := by
            simp only [List.map_cons]
            rw [joinWith]
        _ = joinWith sep g ++ sep :: joinWith sep (r :: rs).flatten := by
            rw [ih hrest]
        _ = joinWith sep (g ++ (r :: rs).flatten) := by
            rw [joinWith_append sep g _ hg hjoin_ne]
        _ = joinWith sep (g :: r :: rs).flatten := by simp

/-- Ghost invariant for `split_text_with_lines`: the emitted chunks are
the joins of a grouping of the already-processed lines, with the current
buffer holding the rest. -/
def Rebuild (s : ChunkState) (pre : List Str) : Prop :=
  ∃ lss : List (List Str),
    s.chunks.map Chunk.text = lss.map (joinWith '\n') ∧
    lss.flatten ++ s.current_chunk = pre ∧
    ∀ g ∈ lss, g ≠ []

lemma linesStep_rebuild (cs : Nat) (s : ChunkState) (l : Str) (pre : List Str)
    (h : Rebuild s pre) : Rebuild (linesStep cs s l) (pre ++ [l]) := by
  obtain ⟨lss, h1, h2, h3⟩ := h
  simp only [linesStep]
  split_ifs with hc
  · refine ⟨lss ++ [s.current_chunk], ?_, ?_, ?_⟩
    · dsimp only
      rw [List.map_append, List.map_append, h1]
      rfl
    · dsimp only
      simp only [List.flatten_append, List.flatten_cons, List.flatten_nil,
        List.append_nil, List.nil_append]
      rw [h2]
    · intro g hg
      rcases List.mem_append.mp hg with hg1 | hg2
      · exact h3 g hg1
      · rw [List.mem_singleton.mp hg2]
        exact hc.2
  · refine ⟨lss, h1, ?_, h3⟩
    dsimp only
    rw [← List.append_assoc, h2]

lemma foldl_linesStep_rebuild (cs : Nat) :
    ∀ (lines : List Str) (s : ChunkState) (pre : List Str),
      Rebuild s pre → Rebuild (lines.foldl (linesStep cs) s) (pre ++ lines) := by
  intro lines
  induction lines with
  | nil => intro s pre h; simpa using h
  | cons l ls ih =>
    intro s pre h
    rw [List.foldl_cons]
    have := ih (linesStep cs s l) (pre ++ [l]) (linesStep_rebuild cs s l pre h)
    simpa using this

/-- The output of `split_text_with_lines` is the joins of a nonempty
grouping of the text's lines. -/
lemma split_text_with_lines_grouping (text : Str) (cs : Nat) :
    ∃ lss : List (List Str),
      (split_text_with_lines text cs).map Chunk.text = lss.map (joinWith '\n') ∧
      lss.flatten = splitLines text ∧
      ∀ g ∈ lss, g ≠ [] := by
  have hfold := foldl_linesStep_rebuild cs (splitLines text) initState []
    ⟨[], rfl, rfl, by simp⟩
  rw [List.nil_append] at hfold
  obtain ⟨lss, h1, h2, h3⟩ := hfold
  set s := (splitLines text).foldl (linesStep cs) initState with hs
  have hNe : s.current_chunk ≠ [] :=
    foldl_current_ne_nil (linesStep_ne_nil cs) (splitLines text) initState
      (splitLines_ne_nil text)
  refine ⟨lss ++ [s.current_chunk], ?_, ?_, ?_⟩
  · unfold split_text_with_lines flushState
    rw [← hs, if_neg hNe, List.map_append, List.map_append, h1]
    rfl
  · simp only [List.flatten_append, List.flatten_cons, List.flatten_nil,
      List.append_nil]
    exact h2
  · intro g hg
    rcases List.mem_append.mp hg with hg1 | hg2
    · exact h3 g hg1
    · rw [List.mem_singleton.mp hg2]
      exact hNe

/-- C10: for every text and chunk size at least 1, joining the chunk
texts of `split_text_with_lines` with a newline reconstructs the input
exactly, and the chunks partition the lines with no duplication and no
loss. -/
theorem C10_lines_reconstruction (text : Str) (cs : Nat) (h : 1 ≤ cs) :
    joinWith '\n' ((split_text_with_lines text cs).map Chunk.text) = text ∧
      ((split_text_with_lines text cs).map (fun c => splitLines c.text)).flatten =
        splitLines text := by
  obtain ⟨lss, h1, h2, h3⟩ := split_text_with_lines_grouping text cs
  constructor
  · rw [h1, joinWith_map_join '\n' lss h3, h2, joinWith_splitLines]
  · have hmap : (split_text_with_lines text cs).map (fun c => splitLines c.text) =
        ((split_text_with_lines text cs).map Chunk.text).map splitLines := by
      rw [List.map_map]
      rfl
    rw [hmap, h1, List.map_map]
    have heach : lss.map (fun g => splitLines (joinWith '\n' g)) = lss.map id := by
      apply List.map_congr_left
      intro g hg
      have hglines : ∀ l ∈ g, '\n' ∉ l := by
        intro l hl
        have : l ∈ lss.flatten := List.mem_flatten.mpr ⟨g, hg, hl⟩
        rw [h2] at this
        exact not_newline_mem_splitLines text l this
      exact splitLines_joinWith g (h3 g hg) hglines
    have : (lss.map (splitLines ∘ joinWith '\n')) = lss := by
      rw [show (splitLines ∘ joinWith '\n') = fun g => splitLines (joinWith '\n' g) from rfl,
        heach, List.map_id]
    rw [this, h2]

/-! ### C8: temporal query expansion (`query_expander.py`) -/

/-- A word character of the regex `\w` / `\b` classes (ASCII, which is
all the scenario exercises). -/
def isWordChar (c : Char) : Bool := c.isAlphanum || c = '_'

/-- First two characters of a year match: `(19|20)`. -/
def isYearStart (c1 c2 : Char) : Bool :=
  (c1 = '1' ∧ c2 = '9') ∨ (c1 = '2' ∧ c2 = '0')

/-- The `\b` right boundary after a 4-digit match. -/
def boundaryAfter : Str → Bool
  | [] => true
  | c :: _ => !(isWordChar c)

/-- Number of non-overlapping matches of `\b(19|20)\d{2}\b`, scanning
left to right as `re.findall` does; `prevW` records whether the
preceding character is a word character (the left `\b`). -/
def countYears : Bool → Str → Nat
  | _, [] => 0
  | prevW, c1 :: c2 :: c3 :: c4 :: rest4 =>
    if prevW = false ∧ isYearStart c1 c2 = true ∧ c3.isDigit = true ∧
        c4.isDigit = true ∧ boundaryAfter rest4 = true
    then 1 + countYears true rest4
    else countYears (isWordChar c1) (c2 :: c3 :: c4 :: rest4)
  | _, c1 :: rest1 => countYears (isWordChar c1) rest1

/-- Python `needle in haystack` on strings. -/
def containsSub (needle : Str) : Str → Bool
  | [] => needle.isEmpty
  | c :: cs => needle.isPrefixOf (c :: cs) || containsSub needle cs

/-- Python `str.lower()` (ASCII inputs). -/
def pyLower (s : Str) : Str := s.map Char.toLower

/-- The employment synonyms added when `'work' in question_lower`. -/
def employmentTerms : List Str :=
  [("employment").toList, ("job").toList, ("position").toList, ("company").toList]

/-- The range cue words checked against `question_lower`. -/
def temporalCues : List Str :=
  [("from").toList, ("to").toList, ("until").toList, ("through").toList,
    ("between").toList, ("during").toList]

/-- The temporal synonyms added when a range cue word is present. -/
def temporalTerms : List Str := [("time period").toList, ("duration").toList]

/-- `QueryExpander.expand_temporal_query(question)`
(`query_expander.py` lines 12-46). -/
def expand_temporal_query (question : Str) : Str :=
  let question_lower := pyLower question
  if 2 ≤ countYears false question then
    let terms1 :=
      if containsSub (("work").toList) question_lower = true then employmentTerms
      else []
    let terms2 :=
      if temporalCues.any (fun w => containsSub w question_lower) = true then temporalTerms
      else []
    let terms_to_add := terms1 ++ terms2
    if terms_to_add ≠ [] then question ++ ' ' :: joinWith ' ' terms_to_add
    else question
  else question

/-- The C8 scenario question. -/
def qC8 : Str := ("What did I do from 2012 to 2019 at my job?").toList

/-- C8 counterexample: the expansion of the scenario question appends
only `" time period duration"`; no term from
{employment, job, position, company} is appended, because the code's
employment cue is the substring `'work'`, which the question lacks
("job" is present in the original question but is not a cue the code
tests). This refutes the claim that at least one employment term is
appended. -/
theorem C8_counterexample :
    expand_temporal_query qC8 = qC8 ++ (" time period duration").toList ∧
      ∀ t ∈ employmentTerms,
        containsSub t ((expand_temporal_query qC8).drop qC8.length) = false := by
  decide

/-- C8 amended: the expansion of the scenario question has the original
question as a prefix and appends both temporal terms "time period" and
"duration", but none of the employment terms
{employment, job, position, company} is appended. -/
theorem C8_expand_scenario :
    (expand_temporal_query qC8).take qC8.length = qC8 ∧
      (∀ t ∈ temporalTerms,
        containsSub t ((expand_temporal_query qC8).drop qC8.length) = true) ∧
      (∀ t ∈ employmentTerms,
        containsSub t ((expand_temporal_query qC8).drop qC8.length) = false) := by
  decide

/-- Witness for C10 on a concrete text and chunk size. -/
theorem C10_lines_reconstruction_witness :
    1 ≤ 3 ∧
      (joinWith '\n' ((split_text_with_lines (("ab\ncd\nef").toList) 3).map Chunk.text) =
          ("ab\ncd\nef").toList ∧
        ((split_text_with_lines (("ab\ncd\nef").toList) 3).map
            (fun c => splitLines c.text)).flatten =
          splitLines (("ab\ncd\nef").toList)) :=
  ⟨by decide, C10_lines_reconstruction (("ab\ncd\nef").toList) 3 (by decide)⟩

end BigHead
namespace BigHead

/-! ### C2: relevance-score normalization in `RAGService.query` -/

/-- Round half to even on a rational, modelling Python's banker's
rounding `round(y)` (floats are modelled as exact rationals). -/
def roundHalfEven (y : ℚ) : ℤ :=
  if y - ⌊y⌋ < 1/2 then ⌊y⌋
  else if 1/2 < y - ⌊y⌋ then ⌊y⌋ + 1
  else if Even ⌊y⌋ then ⌊y⌋ else ⌊y⌋ + 1

/-- Python `round(x, 3)`. -/
def round3 (x : ℚ) : ℚ := (roundHalfEven (x * 1000) : ℚ) / 1000

lemma roundHalfEven_bounds (y : ℚ) :
    ⌊y⌋ ≤ roundHalfEven y ∧ roundHalfEven y ≤ ⌊y⌋ + 1 := by
  unfold roundHalfEven
  split_ifs <;> omega

lemma roundHalfEven_mono {y1 y2 : ℚ} (h : y1 ≤ y2) :
    roundHalfEven y1 ≤ roundHalfEven y2 := by
  rcases lt_or_ge ⌊y1⌋ ⌊y2⌋ with hf | hf
  · have b1 := roundHalfEven_bounds y1
    have b2 := roundHalfEven_bounds y2
    omega
  · have hfe : ⌊y1⌋ = ⌊y2⌋ := le_antisymm (Int.floor_mono h) hf
    unfold roundHalfEven
    rw [hfe]
    split_ifs <;> first | omega | linarith

lemma roundHalfEven_zero : roundHalfEven 0 = 0 := by
  norm_num [roundHalfEven]

lemma roundHalfEven_thousand : roundHalfEven 1000 = 1000 := by
  norm_num [roundHalfEven]

lemma round3_mono {x1 x2 : ℚ} (h : x1 ≤ x2) : round3 x1 ≤ round3 x2 := by
  unfold round3
  have hm : roundHalfEven (x1 * 1000) ≤ roundHalfEven (x2 * 1000) :=
    roundHalfEven_mono (by nlinarith)
  have : (roundHalfEven (x1 * 1000) : ℚ) ≤ (roundHalfEven (x2 * 1000) : ℚ) := by
    exact_mod_cast hm
  linarith

lemma round3_bounds {x : ℚ} (h0 : 0 ≤ x) (h1 : x ≤ 1) :
    0 ≤ round3 x ∧ round3 x ≤ 1 := by
  have m0 : (0 : ℤ) ≤ roundHalfEven (x * 1000) := by
    have := roundHalfEven_mono (show (0 : ℚ) ≤ x * 1000 by nlinarith)
    rwa [roundHalfEven_zero] at this
  have m1 : roundHalfEven (x * 1000) ≤ 1000 := by
    have := roundHalfEven_mono (show x * 1000 ≤ 1000 by nlinarith)
    rwa [roundHalfEven_thousand] at this
  unfold round3
  constructor
  · apply div_nonneg _ (by norm_num)
    exact_mod_cast m0
  · rw [div_le_one (by norm_num)]
    exact_mod_cast m1

/-- A retrieved document as consumed by the scoring loop of
`RAGService.query`: `doc.content` plus the `meta` entries it reads
(`filename`, `line_start`, `line_end`, `score`); an absent entry is
`none` (`doc.meta.get(key, default)` / `doc.meta.get('score', None)`).
The raw L2 distance `score` is modelled as an exact rational. -/
structure RetrievedDoc where
  content : Str
  filename : Option Str
  line_start : Option Nat
  line_end : Option Nat
  score : Option ℚ
deriving DecidableEq

/-- One entry of the `sources` list built by `RAGService.query`
(`__init__.py` lines 244-251). -/
structure Source where
  content : Str
  reference : Str
  filename : Str
  line_start : Nat
  line_end : Nat
  relevance_score : ℚ
deriving DecidableEq

/-- `max` over a nonempty list, Python `max(scores)`. -/
def listMax (x : ℚ) (xs : List ℚ) : ℚ := xs.foldl max x

/-- `min` over a nonempty list, Python `min(scores)`. -/
def listMin (x : ℚ) (xs : List ℚ) : ℚ := xs.foldl min x

/-- First pass of the scoring loop: the non-`None` scores
(`__init__.py` lines 214-218). -/
def scoresOf (documents : List RetrievedDoc) : List ℚ :=
  documents.filterMap (fun d => d.score)

/-- `max_score`: default 1.0, replaced by `max(scores)` when any score
exists (`__init__.py` lines 210, 221-223). -/
def maxScoreOf (documents : List RetrievedDoc) : ℚ :=
  match scoresOf documents with
  | [] => 1
  | x :: xs => listMax x xs

/-- `min_score`: default 0.0, replaced by `min(scores)` when any score
exists (`__init__.py` lines 211, 221-223). -/
def minScoreOf (documents : List RetrievedDoc) : ℚ :=
  match scoresOf documents with
  | [] => 0
  | x :: xs => listMin x xs

/-- Decimal digits of a natural number, for the f-string
`f"{filename}:{line_start}-{line_end}"`. -/
def natStr (n : Nat) : Str := Nat.toDigits 10 n

/-- One `sources` entry for 0-based rank `i`
(`__init__.py` lines 227-251): normalized inverted distance when the
document has a score and `max_score != min_score`, positional fallback
`1 - i / max(n, 1)` otherwise, rounded to 3 decimals. -/
def sourceOf (n : Nat) (min_score max_score : ℚ) (i : Nat)
    (doc : RetrievedDoc) : Source :=
  let relevance_score :=
    match doc.score with
    | some sc =>
      if max_score ≠ min_score then 1 - (sc - min_score) / (max_score - min_score)
      else 1 - (i : ℚ) / (max n 1 : ℚ)
    | none => 1 - (i : ℚ) / (max n 1 : ℚ)
  { content := doc.content
    reference := (doc.filename.getD (("unknown").toList)) ++ ':' ::
      (natStr (doc.line_start.getD 0) ++ '-' :: natStr (doc.line_end.getD 0))
    filename := doc.filename.getD (("unknown").toList)
    line_start := doc.line_start.getD 0
    line_end := doc.line_end.getD 0
    relevance_score := round3 relevance_score }

/-- The full scoring pass of `RAGService.query`
(`__init__.py` lines 206-251), mapping retrieved documents (in
retrieval order) to `sources` entries. -/
def computeSources (documents : List RetrievedDoc) : List Source :=
  documents.enum.map
    (fun p => sourceOf documents.length (minScoreOf documents) (maxScoreOf documents) p.1 p.2)

lemma listMax_spec :
    ∀ (xs : List ℚ) (x : ℚ), x ≤ listMax x xs ∧ ∀ y ∈ xs, y ≤ listMax x xs := by
  intro xs
  induction xs with
  | nil => intro x; simp [listMax]
  | cons a as ih =>
    intro x
    have hstep : listMax x (a :: as) = listMax (max x a) as := by
      simp [listMax]
    have h := ih (max x a)
    rw [hstep]
    refine ⟨le_trans (le_max_left x a) h.1, ?_⟩
    intro y hy
    rcases List.mem_cons.mp hy with rfl | hmem
    · exact le_trans (le_max_right x y) h.1
    · exact h.2 y hmem

lemma listMin_spec :
    ∀ (xs : List ℚ) (x : ℚ), listMin x xs ≤ x ∧ ∀ y ∈ xs, listMin x xs ≤ y := by
  intro xs
  induction xs with
  | nil => intro x; simp [listMin]
  | cons a as ih =>
    intro x
    have hstep : listMin x (a :: as) = listMin (min x a) as := by
      simp [listMin]
    have h := ih (min x a)
    rw [hstep]
    refine ⟨le_trans h.1 (min_le_left x a), ?_⟩
    intro y hy
    rcases List.mem_cons.mp hy with rfl | hmem
    · exact le_trans h.1 (min_le_right x y)
    · exact h.2 y hmem

lemma score_bounds (documents : List RetrievedDoc) (y : ℚ)
    (hy : y ∈ scoresOf documents) :
    minScoreOf documents ≤ y ∧ y ≤ maxScoreOf documents := by
  unfold minScoreOf maxScoreOf
  cases h : scoresOf documents with
  | nil => rw [h] at hy; simp at hy
  | cons x xs =>
    rw [h] at hy
    rcases List.mem_cons.mp hy with rfl | hmem
    · exact ⟨(listMin_spec xs y).1, (listMax_spec xs y).1⟩
    · exact ⟨(listMin_spec xs x).2 y hmem, (listMax_spec xs x).2 y hmem⟩

lemma computeSources_length (documents : List RetrievedDoc) :
    (computeSources documents).length = documents.length := by
  simp [computeSources]

lemma computeSources_get (documents : List RetrievedDoc) (i : Nat)
    (hi : i < documents.length) (hi2 : i < (computeSources documents).length) :
    (computeSources documents).get ⟨i, hi2⟩ =
      sourceOf documents.length (minScoreOf documents) (maxScoreOf documents) i
        (documents.get ⟨i, hi⟩) := by
  simp [computeSources]

/-- The pre-rounding relevance value is in `[0, 1]` in every branch. -/
lemma raw_relevance_bounds (documents : List RetrievedDoc) (i : Nat)
    (hi : i < documents.length) :
    0 ≤ (sourceOf documents.length (minScoreOf documents) (maxScoreOf documents) i
        (documents.get ⟨i, hi⟩)).relevance_score ∧
      (sourceOf documents.length (minScoreOf documents) (maxScoreOf documents) i
        (documents.get ⟨i, hi⟩)).relevance_score ≤ 1 := by
  have hfall : 0 ≤ 1 - (i : ℚ) / (max documents.length 1 : ℚ) ∧
      1 - (i : ℚ) / (max documents.length 1 : ℚ) ≤ 1 := by
    have hpos : (0 : ℚ) < (max documents.length 1 : ℚ) := by
      have : 1 ≤ max documents.length 1 := le_max_right _ _
      exact_mod_cast lt_of_lt_of_le zero_lt_one (by exact_mod_cast this)
    have hle : (i : ℚ) ≤ (max documents.length 1 : ℚ) := by
      have : i ≤ max documents.length 1 := le_trans (le_of_lt hi) (le_max_left _ _)
      exact_mod_cast this
    constructor
    · have : (i : ℚ) / (max documents.length 1 : ℚ) ≤ 1 := by
        rw [div_le_one hpos]; exact hle
      linarith
    · have : 0 ≤ (i : ℚ) / (max documents.length 1 : ℚ) :=
        div_nonneg (by positivity) (le_of_lt hpos)
      linarith
  unfold sourceOf
  cases hsc : (documents.get ⟨i, hi⟩).score with
  | none =>
    simp only [hsc]
    exact round3_bounds hfall.1 hfall.2
  | some sc =>
    simp only [hsc]
    split_ifs with hne
    · have hmem : sc ∈ scoresOf documents :=
        List.mem_filterMap.mpr ⟨documents.get ⟨i, hi⟩, List.get_mem _ _ _, hsc⟩
      obtain ⟨hlo, hhi⟩ := score_bounds documents sc hmem
      have hlt : minScoreOf documents < maxScoreOf documents :=
        lt_of_le_of_ne (le_trans hlo hhi) (fun hcontra => hne hcontra.symm)
      have hq0 : 0 ≤ (sc - minScoreOf documents) /
          (maxScoreOf documents - minScoreOf documents) :=
        div_nonneg (by linarith) (by linarith)
      have hq1 : (sc - minScoreOf documents) /
          (maxScoreOf documents - minScoreOf documents) ≤ 1 := by
        rw [div_le_one (by linarith)]
        linarith
      exact round3_bounds (by linarith) (by linarith)
    · exact round3_bounds hfall.1 hfall.2

/-- C2: every `relevance_score` produced by the query pipeline's scoring
pass lies in `[0, 1]`, and for any two retrieved items with raw
distances `d1 < d2` (`d1` closer) the item with distance `d1` receives a
relevance score at least as large as the item with distance `d2`; scores
are the inverted min-max-normalized distances (positional fallback when
no distance or degenerate range) rounded to 3 decimals. -/
theorem C2_relevance_scores (documents : List RetrievedDoc) :
    (∀ src ∈ computeSources documents,
        0 ≤ src.relevance_score ∧ src.relevance_score ≤ 1) ∧
      (∀ i j (hi : i < documents.length) (hj : j < documents.length)
          (hi2 : i < (computeSources documents).length)
          (hj2 : j < (computeSources documents).length) (d1 d2 : ℚ),
          (documents.get ⟨i, hi⟩).score = some d1 →
          (documents.get ⟨j, hj⟩).score = some d2 → d1 < d2 →
          ((computeSources documents).get ⟨j, hj2⟩).relevance_score ≤
            ((computeSources documents).get ⟨i, hi2⟩).relevance_score) := by
  constructor
  · intro src hsrc
    obtain ⟨⟨i, hi2⟩, hget⟩ := List.mem_iff_get.mp hsrc
    have hi : i < documents.length := by
      rw [computeSources_length] at hi2
      exact hi2
    rw [← hget, computeSources_get documents i hi hi2]
    exact raw_relevance_bounds documents i hi
  · intro i j hi hj hi2 hj2 d1 d2 hd1 hd2 hlt
    rw [computeSources_get documents i hi hi2, computeSources_get documents j hj hj2]
    have hm1 : d1 ∈ scoresOf documents :=
      List.mem_filterMap.mpr ⟨documents.get ⟨i, hi⟩, List.get_mem _ _ _, hd1⟩
    have hm2 : d2 ∈ scoresOf documents :=
      List.mem_filterMap.mpr ⟨documents.get ⟨j, hj⟩, List.get_mem _ _ _, hd2⟩
    obtain ⟨hlo1, hhi1⟩ := score_bounds documents d1 hm1
    obtain ⟨hlo2, hhi2⟩ := score_bounds documents d2 hm2
    have hltr : minScoreOf documents < maxScoreOf documents :=
      lt_of_le_of_lt hlo1 (lt_of_lt_of_le hlt hhi2)
    have hne : maxScoreOf documents ≠ minScoreOf documents := ne_of_gt hltr
    unfold sourceOf
    simp only [hd1, hd2, if_pos hne]
    apply round3_mono
    have hc : (0 : ℚ) < maxScoreOf documents - minScoreOf documents := by linarith
    have hdiv : (d1 - minScoreOf documents) /
          (maxScoreOf documents - minScoreOf documents) ≤
        (d2 - minScoreOf documents) /
          (maxScoreOf documents - minScoreOf documents) :=
      (div_le_div_iff_of_pos_right hc).mpr (by linarith)
    linarith

end BigHead
namespace BigHead

/-- Concrete retrieved documents for the C2 witness: raw distances 2
(rank 0) and 1 (rank 1). -/
def docsW : List RetrievedDoc :=
  [⟨("alpha").toList, some (("a.txt").toList), some 1, some 2, some 2⟩,
    ⟨("beta").toList, some (("a.txt").toList), some 3, some 4, some 1⟩]

/-- Witness for C2 on `docsW`: bounds at rank 0 and monotonicity between
the distance-1 item (rank 1) and the distance-2 item (rank 0). -/
theorem C2_relevance_scores_witness :
    ((0 ≤ ((computeSources docsW).get ⟨0, by decide⟩).relevance_score ∧
        ((computeSources docsW).get ⟨0, by decide⟩).relevance_score ≤ 1)) ∧
      ((docsW.get ⟨1, by decide⟩).score = some 1 ∧
        (docsW.get ⟨0, by decide⟩).score = some 2 ∧ (1 : ℚ) < 2 ∧
        ((computeSources docsW).get ⟨0, by decide⟩).relevance_score ≤
          ((computeSources docsW).get ⟨1, by decide⟩).relevance_score) :=
  ⟨(C2_relevance_scores docsW).1 _ (List.get_mem _ _ _),
    rfl, rfl, by norm_num,
    (C2_relevance_scores docsW).2 1 0 (by decide) (by decide) (by decide) (by decide)
      1 2 rfl rfl (by norm_num)⟩

/-! ### C3: `EmbeddingsManager.delete_document` -/

/-- An indexed vector as far as deletion is concerned: its unique id and
its `metadata.filename`. Modelled from the spec: the vector store client
(`ChromaDocumentStore` plus its collection) is an external library, so
the store itself is a list of such records and `filter_documents`,
`delete_documents` and `count_documents` get the client-contract
semantics of spec section 6. -/
structure StoredDoc where
  id : Nat
  filename : Str
deriving DecidableEq

/-- Modelled from the spec: `filter_documents` with
`{"field": "filename", "operator": "==", "value": f}` returns the
documents whose metadata filename equals `f`, in store order. -/
def store_filter_documents (store : List StoredDoc) (f : Str) : List StoredDoc :=
  store.filter (fun d => d.filename == f)

/-- Modelled from the spec: `delete_documents(ids)` removes in one batch
every document whose id is in the list. -/
def store_delete_documents (store : List StoredDoc) (ids : List Nat) : List StoredDoc :=
  store.filter (fun d => decide (d.id ∉ ids))

/-- Modelled from the spec: `count_documents()` is the number of indexed
vectors. -/
def count_documents (store : List StoredDoc) : Nat := store.length

/-- `EmbeddingsManager.delete_document(filename)`
(`embeddings_manager.py` lines 47-77): the primary haystack-filter path,
which raises nothing here — filter by filename, return `False` when
nothing matched (not an error), else delete the matched ids in one batch
and return `True`. Returns the flag and the resulting store. -/
def delete_document (store : List StoredDoc) (filename : Str) :
    Bool × List StoredDoc :=
  let docs_to_delete := store_filter_documents store filename
  if docs_to_delete.isEmpty then (false, store)
  else (true, store_delete_documents store (docs_to_delete.map (fun d => d.id)))

/-- With unique ids, a stored document's id appears among the matched
ids exactly when the document itself matches the filename. -/
lemma id_mem_matched_iff (store : List StoredDoc) (f : Str)
    (hids : (store.map (fun d => d.id)).Nodup) (d : StoredDoc) (hd : d ∈ store) :
    d.id ∈ (store_filter_documents store f).map (fun x => x.id) ↔ d.filename = f := by
  constructor
  · intro hmem
    obtain ⟨m, hm, hmid⟩ := List.mem_map.mp hmem
    have hmstore : m ∈ store := List.mem_of_mem_filter hm
    have hmf : m.filename = f := by
      have := (List.mem_filter.mp hm).2
      simpa using this
    have hinj := List.inj_on_of_nodup_map hids
    exact (hinj hmstore hd hmid) ▸ hmf
  · intro hmatch
    exact List.mem_map.mpr
      ⟨d, List.mem_filter.mpr ⟨hd, by simp [store_filter_documents, hmatch]⟩, rfl⟩

lemma length_filter_not_mem (store : List StoredDoc) (f : Str)
    (hids : (store.map (fun d => d.id)).Nodup) :
    (store_delete_documents store
        ((store_filter_documents store f).map (fun d => d.id))).length =
      store.length - (store_filter_documents store f).length := by
  unfold store_delete_documents
  have hcongr : ∀ d ∈ store,
      (decide (d.id ∉ (store_filter_documents store f).map (fun x => x.id))) =
        (!(d.filename == f)) := by
    intro d hd
    rw [Bool.eq_iff_iff]
    simp [id_mem_matched_iff store f hids d hd]
  rw [List.filter_congr hcongr]
  have hsplit :=
    @List.length_eq_length_filter_add StoredDoc store (fun d => d.filename == f)
  simp only at hsplit
  unfold store_filter_documents
  omega

/-- C3: deleting a filename with exactly `N` matching indexed vectors
removes exactly those `N` vectors (`count()` decreases by `N`) and
returns true when `N > 0`; with zero matches it returns false, is not an
error, and leaves the store unchanged. Ids are unique per the data
model. -/
theorem C3_delete_document (store : List StoredDoc) (filename : Str) (N : Nat)
    (hN : (store_filter_documents store filename).length = N)
    (hids : (store.map (fun d => d.id)).Nodup) :
    count_documents (delete_document store filename).2 =
        count_documents store - N ∧
      (0 < N → (delete_document store filename).1 = true) ∧
      (N = 0 → (delete_document store filename).1 = false ∧
        (delete_document store filename).2 = store) := by
  simp only [delete_document, count_documents]
  by_cases hempty : (store_filter_documents store filename).isEmpty
  · have hnil : store_filter_documents store filename = [] :=
      List.isEmpty_iff.mp hempty
    have hN0 : N = 0 := by rw [← hN, hnil]; rfl
    rw [if_pos hempty]
    exact ⟨by dsimp only; omega, fun hpos => absurd hN0 (by omega), fun _ => ⟨rfl, rfl⟩⟩
  · have hpos : 0 < N := by
      rcases Nat.eq_zero_or_pos N with h0 | h
      · exfalso
        apply hempty
        rw [List.isEmpty_iff, ← List.length_eq_zero]
        omega
      · exact h
    rw [if_neg hempty]
    refine ⟨?_, fun _ => rfl, fun h0 => absurd h0 (by omega)⟩
    dsimp only
    rw [length_filter_not_mem store filename hids, hN]

/-- Witness for C3: a store with two chunks of `"a"` and one of `"b"`;
deleting `"a"` removes exactly 2, deleting it again would find none. -/
theorem C3_delete_document_witness :
    ((store_filter_documents
        [⟨1, ("a").toList⟩, ⟨2, ("a").toList⟩, ⟨3, ("b").toList⟩] (("a").toList)).length = 2 ∧
      (([⟨1, ("a").toList⟩, ⟨2, ("a").toList⟩,
          ⟨3, ("b").toList⟩] : List StoredDoc).map (fun d => d.id)).Nodup) ∧
      (count_documents (delete_document
          [⟨1, ("a").toList⟩, ⟨2, ("a").toList⟩, ⟨3, ("b").toList⟩] (("a").toList)).2 =
        count_documents [⟨1, ("a").toList⟩, ⟨2, ("a").toList⟩, ⟨3, ("b").toList⟩] - 2 ∧
        (0 < 2 → (delete_document
          [⟨1, ("a").toList⟩, ⟨2, ("a").toList⟩, ⟨3, ("b").toList⟩] (("a").toList)).1 = true) ∧
        (2 = 0 → (delete_document
            [⟨1, ("a").toList⟩, ⟨2, ("a").toList⟩, ⟨3, ("b").toList⟩] (("a").toList)).1 = false ∧
          (delete_document
            [⟨1, ("a").toList⟩, ⟨2, ("a").toList⟩, ⟨3, ("b").toList⟩] (("a").toList)).2 =
            [⟨1, ("a").toList⟩, ⟨2, ("a").toList⟩, ⟨3, ("b").toList⟩])) :=
  ⟨⟨by decide, by decide⟩,
    C3_delete_document _ _ 2 (by decide) (by decide)⟩

end BigHead
namespace BigHead

/-! ### C4: `EmbeddingsManager.get_embeddings_paginated` -/

/-- An embedding record held by the ChromaDB collection: id, content,
and the `document_id` metadata entry used for filtering. The collection
is modelled from the spec's vector-store client contract: `get(limit,
offset, where)` returns matching records in insertion order, sliced by
offset then limit. -/
structure EmbedRec where
  id : Str
  content : Str
  document_id : Option Str
deriving DecidableEq

/-- One element of the returned `embeddings` list. -/
structure EmbedItem where
  id : Str
  content : Str
  metadata : Option Str
deriving DecidableEq

/-- The dict returned by `get_embeddings_paginated`. -/
structure PageResult where
  embeddings : List EmbedItem
  total : Nat
  page : Nat
  per_page : Nat
  total_pages : Nat
deriving DecidableEq

/-- `EmbeddingsManager.get_embeddings_paginated(page, per_page, document_id)`
(`embeddings_manager.py` lines 112-205, the primary ChromaDB path).
`page` and `per_page` arrive as naturals; a falsy (absent or empty)
`document_id` means no filter. With `per_page = 0` the expression
`(total + per_page - 1) // per_page` raises `ZeroDivisionError`,
modelled as `none`; no clamping of `per_page` is performed anywhere. -/
def get_embeddings_paginated (store : List EmbedRec) (page per_page : Nat)
    (document_id : Option Str) : Option PageResult :=
  let filtered :=
    match document_id with
    | some d =>
      if d.isEmpty then store else store.filter (fun r => r.document_id == some d)
    | none => store
  let total := filtered.length
  let offset := (page - 1) * per_page
  let results := (filtered.drop offset).take per_page
  if per_page = 0 then none
  else some
    { embeddings := results.map (fun r => ⟨r.id, r.content, r.document_id⟩)
      total := total
      page := page
      per_page := per_page
      total_pages := (total + per_page - 1) / per_page }

/-- `(t + p - 1) / p` in natural division is the rational ceiling of
`t / p`, for `p ≥ 1`. -/
lemma nat_ceil_div (t p : Nat) (hp : 1 ≤ p) :
    (((t + p - 1) / p : Nat) : ℤ) = ⌈(t : ℚ) / (p : ℚ)⌉ := by
  have hp0 : 0 < p := hp
  set n := (t + p - 1) / p with hn
  have hdm := Nat.div_add_mod (t + p - 1) p
  have hmod : (t + p - 1) % p < p := Nat.mod_lt _ hp0
  rw [← hn] at hdm
  have hnat1 : p * n < t + p := by omega
  have hnat2 : t ≤ p * n := by omega
  have hpQ : (0 : ℚ) < (p : ℚ) := by exact_mod_cast hp0
  have hq1 : ((p : ℚ)) * n < t + p := by exact_mod_cast hnat1
  have hq2 : (t : ℚ) ≤ (p : ℚ) * n := by exact_mod_cast hnat2
  rw [eq_comm, Int.ceil_eq_iff]
  constructor
  · push_cast
    rw [lt_div_iff₀ hpQ]
    nlinarith
  · push_cast
    rw [div_le_iff₀ hpQ]
    nlinarith

/-- C4 counterexample: the claim says `paginate` clamps `perPage` into
`[1, 100]` and in particular is well-defined for `perPage = 0`; in fact
nothing is clamped and `perPage = 0` divides by zero
(`ZeroDivisionError`, modelled as `none`). -/
theorem C4_counterexample :
    get_embeddings_paginated [] 1 0 none = none := by
  decide

/-- C4 amended: `per_page` is used exactly as given — no clamping into
`[1, 100]` happens (the result echoes any `per_page`, including values
above 100) — and for every `per_page ≥ 1` the call succeeds with
`total_pages = ceil(total / per_page)`; `per_page = 0` raises
`ZeroDivisionError` instead of being clamped. -/
theorem C4_pagination (store : List EmbedRec) (page per_page : Nat)
    (document_id : Option Str) (h : 1 ≤ per_page) :
    ∃ r, get_embeddings_paginated store page per_page document_id = some r ∧
      r.per_page = per_page ∧
      r.total_pages = (r.total + per_page - 1) / per_page ∧
      ((r.total_pages : Nat) : ℤ) = ⌈(r.total : ℚ) / ((per_page : Nat) : ℚ)⌉ := by
  simp only [get_embeddings_paginated]
  rw [if_neg (by omega)]
  refine ⟨_, rfl, rfl, rfl, ?_⟩
  exact nat_ceil_div _ per_page h

/-- Witness for C4: `per_page = 200` stays 200 (no clamp to 100) on a
one-record store. -/
theorem C4_pagination_witness :
    1 ≤ 200 ∧
      ∃ r, get_embeddings_paginated [⟨("e1").toList, ("c1").toList, none⟩] 1 200 none =
          some r ∧
        r.per_page = 200 ∧
        r.total_pages = (r.total + 200 - 1) / 200 ∧
        ((r.total_pages : Nat) : ℤ) = ⌈(r.total : ℚ) / ((200 : Nat) : ℚ)⌉ :=
  ⟨by decide,
    C4_pagination [⟨("e1").toList, ("c1").toList, none⟩] 1 200 none (by decide)⟩

/-! ### C6: `ChromaDBManager.initialize_with_retry` -/

/-- `"Could not connect to tenant" in error_msg`
(`chromadb_manager.py` line 61). -/
def is_tenant_error (msg : Str) : Bool :=
  containsSub (("Could not connect to tenant").toList) msg

/-- `"already exists" in error_msg` (`chromadb_manager.py` line 62). -/
def is_already_exists_error (msg : Str) : Bool :=
  containsSub (("already exists").toList) msg

/-- The retry loop of `ChromaDBManager.initialize_with_retry`
(`chromadb_manager.py` lines 38-87). One attempt — directory creation,
`ChromaDocumentStore(...)`, the `count_documents` probe — either returns
a store handle or raises, abstracted as `attempt i`; `rem` is the number
of attempts still allowed. The error classification
(`is_tenant_error` / `is_already_exists_error`) selects only logging and
filesystem recovery steps (`_gentle_chroma_cleanup`,
`_aggressive_chroma_recovery`) and the backoff sleep, none of which
changes the returned value, so they are not modelled; on the last
attempt (`attempt == max_retries - 1`) the exception is re-raised. -/
def initAttempts {Store : Type} (attempt : Nat → Except Str Store) :
    Nat → Nat → Except Str Store
  | _, 0 => Except.error (("Failed to initialize ChromaDB after all retries").toList)
  | i, rem + 1 =>
    match attempt i with
    | Except.ok s => Except.ok s
    | Except.error e =>
      if rem = 0 then Except.error e else initAttempts attempt (i + 1) rem

/-- `ChromaDBManager.initialize_with_retry(max_retries, initial_delay)`;
the delay only feeds `time.sleep` and is not modelled. -/
def initialize_with_retry {Store : Type} (attempt : Nat → Except Str Store)
    (max_retries : Nat) : Except Str Store :=
  initAttempts attempt 0 max_retries

lemma initAttempts_ok {Store : Type} (attempt : Nat → Except Str Store) :
    ∀ (rem i k : Nat) (s : Store), i ≤ k → k < i + rem →
      (∀ j, i ≤ j → j < k → ∃ e, attempt j = Except.error e) →
      attempt k = Except.ok s → initAttempts attempt i rem = Except.ok s := by
  intro rem
  induction rem with
  | zero => intro i k s h1 h2 _ _; omega
  | succ m ih =>
    intro i k s h1 h2 hfail hok
    unfold initAttempts
    rcases Nat.eq_or_lt_of_le h1 with rfl | hlt
    · simp [hok]
    · obtain ⟨e, he⟩ := hfail i (le_refl i) hlt
      simp only [he]
      have hm : m ≠ 0 := by omega
      rw [if_neg hm]
      exact ih (i + 1) k s (by omega) (by omega)
        (fun j hj1 hj2 => hfail j (by omega) hj2) hok

lemma initAttempts_allfail {Store : Type} (attempt : Nat → Except Str Store)
    (E : Nat → Str) :
    ∀ (rem i : Nat), 0 < rem →
      (∀ j, i ≤ j → j < i + rem → attempt j = Except.error (E j)) →
      initAttempts attempt i rem = Except.error (E (i + rem - 1)) := by
  intro rem
  induction rem with
  | zero => intro i h; omega
  | succ m ih =>
    intro i _ hfail
    unfold initAttempts
    simp only [hfail i (le_refl i) (by omega)]
    by_cases hm : m = 0
    · subst hm
      simp
    · rw [if_neg hm,
        ih (i + 1) (by omega) (fun j hj1 hj2 => hfail j (by omega) (by omega))]
      have harg : i + 1 + m - 1 = i + (m + 1) - 1 := by omega
      rw [harg]

/-- C6: with `max_retries = 3`, if the first two attempts raise (e.g. a
tenant-collision class error) and the third succeeds, `initialize`
returns the handle and raises no `InitializationError`; more generally a
success at attempt `k < max_retries` after `k` failures returns the
handle, and only when all `max_retries` attempts fail is the last error
re-raised. -/
theorem C6_initialize_retry (Store : Type) (attempt : Nat → Except Str Store)
    (max_retries k : Nat) (s : Store) (E : Nat → Str) :
    (k < max_retries → (∀ i, i < k → attempt i = Except.error (E i)) →
      attempt k = Except.ok s →
      initialize_with_retry attempt max_retries = Except.ok s) ∧
      (0 < max_retries → (∀ i, i < max_retries → attempt i = Except.error (E i)) →
        initialize_with_retry attempt max_retries =
          Except.error (E (max_retries - 1))) := by
  constructor
  · intro hk hfail hok
    exact initAttempts_ok attempt max_retries 0 k s (by omega) (by omega)
      (fun j _ hj2 => ⟨E j, hfail j hj2⟩) hok
  · intro hpos hfail
    have := initAttempts_allfail attempt E max_retries 0 hpos
      (fun j _ hj2 => hfail j (by omega))
    simpa using this

/-- The simulated tenant-collision error message of the C6 scenario. -/
def tenantMsg : Str := ("Could not connect to tenant default_tenant").toList

/-- The C6 scenario attempt sequence: two tenant-collision failures,
then success. -/
def attemptW : Nat → Except Str Nat :=
  fun i => if i < 2 then Except.error tenantMsg else Except.ok 7

/-- Witness for C6: the scenario with two simulated tenant-collision
failures succeeds on the third attempt; a three-failure run raises the
last error. -/
theorem C6_initialize_retry_witness :
    (is_tenant_error tenantMsg = true ∧
      initialize_with_retry attemptW 3 = Except.ok 7) ∧
      initialize_with_retry (fun _ => (Except.error tenantMsg : Except Str Nat)) 3 =
        Except.error tenantMsg :=
  ⟨⟨by decide,
      (C6_initialize_retry Nat attemptW 3 2 7 (fun _ => tenantMsg)).1 (by omega)
        (fun i hi => by
          have : i < 2 := hi
          simp [attemptW, this])
        (by simp [attemptW])⟩,
    (C6_initialize_retry Nat (fun _ => (Except.error tenantMsg : Except Str Nat)) 3 2 7
        (fun _ => tenantMsg)).2 (by omega) (fun i _ => rfl)⟩

end BigHead
